import Mathlib

/-!
Verification of the probe/hole assignment core of `np_probe_targets`
(`src/implant_drawing.py`, class `ImplantSVG`).

The Python class keeps two dictionaries:
  * `probe_memory : probe letter ('A'..'F') → hole label or None`
  * `hole_memory  : hole label ("A1".."F3") → probe letter or None`
mutated only through `set_probe_hole`, plus a 21-element label catalogue
`strings`, an index conversion `index_to_label`, a persistence loader
`load_targets`, and a diagram renderer `show_memory` that rewrites an SVG
string.  Each Lean definition below is a direct transcription of the
corresponding Python code; dictionaries with a fixed key set become total
functions `String → Option String` (value `none` outside the key set).
-/

namespace ImplantSVG

/-- The probe identifiers, `list('ABCDEF')` in the source. -/
def probes : List String := ["A", "B", "C", "D", "E", "F"]

/-- The class attribute `labels`: available integer positions per group. -/
def labelGroups : List (String × List Nat) :=
  [("A", [1, 2, 3]), ("B", [1, 2, 3, 4]), ("C", [1, 2, 3, 4]),
   ("D", [1, 2, 3]), ("E", [1, 2, 3, 4]), ("F", [1, 2, 3])]

/-- The comprehension `list(f"{k}{i}" for k,v in labels.items() for i in v)`,
parametrised by the group table so the same construction can be evaluated on
other label spaces. -/
def stringsOf (groups : List (String × List Nat)) : List String :=
  groups.flatMap (fun kv => kv.2.map (fun i => kv.1 ++ toString i))

/-- The class attribute `strings`: `A1, A2, A3, B1, ...`. -/
def strings : List String := stringsOf labelGroups

/-- Error kinds raised by the Python code (all `ValueError`s, distinguished by
their message / raise site, matching the spec's error taxonomy). -/
inductive Err where
  | invalidProbe
  | indexOutOfRange
  | invalidLabel
deriving DecidableEq, Repr

/-- The `hole` argument of `set_probe_hole`: Python `None | int | str`. -/
inductive HoleArg where
  | noneArg
  | intArg (i : Int)
  | strArg (s : String)
deriving DecidableEq, Repr

/-- The mutable state of an `ImplantSVG` instance: the two dictionaries.
Keys absent from the Python dict are mapped to `none`. -/
structure State where
  probe_memory : String → Option String
  hole_memory : String → Option String

/-- Pointwise dictionary update `d[k] = v`. -/
def upd (f : String → Option String) (k : String) (v : Option String) :
    String → Option String :=
  fun x => if x = k then v else f x

/-- Fresh state from `__init__` when no record file exists: every probe and
every hole unassigned. -/
def initState : State := ⟨fun _ => none, fun _ => none⟩

/-- `index_to_label` body, parametrised by the label list: `cls.strings[index]`
after the bounds check `index in range(len(cls.strings))`. -/
def index_to_label_of (strs : List String) (index : Int) : Except Err String :=
  if 0 ≤ index ∧ index < strs.length then .ok (strs.getD index.toNat "")
  else .error .indexOutOfRange

/-- `ImplantSVG.index_to_label` on the class's own `strings`. -/
def index_to_label (index : Int) : Except Err String :=
  index_to_label_of strings index

/-- Python `str.lower()` (ASCII inputs only are ever used). -/
def pyLower (s : String) : String := String.mk (s.data.map Char.toLower)

/-- The label-normalisation cascade at the top of `set_probe_hole`:
`isinstance(hole, int)` / `hole in [*strings, None]` /
`isinstance(hole, str) and hole.lower() == 'none'` / `raise ValueError`. -/
def resolve_label : HoleArg → Except Err (Option String)
  | .intArg i =>
    match index_to_label i with
    | .ok s => .ok (some s)
    | .error e => .error e
  | .noneArg => .ok none
  | .strArg s =>
    if s ∈ strings then .ok (some s)
    else if pyLower s = "none" then .ok none
    else .error .invalidLabel

/-- A stored assignment value (a label, or `None`) passed back to
`set_probe_hole` as the `hole` argument. -/
def holeArgOf : Option String → HoleArg
  | none => .noneArg
  | some s => .strArg s

/-- `set_probe_hole(probe, None)`: the specialisation of the Python method to
`hole = None` (probe check; no-op when already unassigned; clear the inverse
entry of the current label; clear the probe's entry).  The recursive call
inside `set_probe_hole`'s displacement loop always has this form; the lemma
`set_probe_hole_noneArg` below proves this definition coincides with the
general method at `hole = None`. -/
def unassign_probe (st : State) (probe : String) : Except Err State :=
  if probe ∈ probes then
    if st.probe_memory probe = none then .ok st
    else
      let st1 : State :=
        match st.probe_memory probe with
        | some cur => { st with hole_memory := upd st.hole_memory cur none }
        | none => st
      .ok { st1 with probe_memory := upd st1.probe_memory probe none }
  else .error .invalidProbe

/-- The displacement loop
`for other_probe in probe_memory.keys(): if probe_memory[other_probe] == label:
self.set_probe_hole(other_probe, None)`, reading the state current at each
iteration.  The fallback in the error branch is unreachable (the keys are
valid probes). -/
def displace (l : String) : State → List String → State
  | st, [] => st
  | st, q :: rest =>
    let st' :=
      if st.probe_memory q = some l then
        match unassign_probe st q with
        | .ok s => s
        | .error _ => st
      else st
    displace l st' rest

/-- `ImplantSVG.set_probe_hole`, transcribed line by line:
probe check, label resolution, idempotence no-op, clearing the inverse entry
of the probe's current label, the displacement loop over `probe_memory.keys()`
guarded by `label and label in probe_memory.values()`, the assignment
`probe_memory[probe] = label`, and finally `hole_memory[label] = probe` when
`label` is truthy. -/
def set_probe_hole (st : State) (probe : String) (hole : HoleArg) :
    Except Err State :=
  if probe ∈ probes then
    match resolve_label hole with
    | .error e => .error e
    | .ok label =>
      if st.probe_memory probe = label then .ok st
      else
        let st1 : State :=
          match st.probe_memory probe with
          | some cur => { st with hole_memory := upd st.hole_memory cur none }
          | none => st
        let st2 : State :=
          match label with
          | some l =>
            if some l ∈ probes.map st1.probe_memory then displace l st1 probes
            else st1
          | none => st1
        let st3 : State := { st2 with probe_memory := upd st2.probe_memory probe label }
        match label with
        | some l => .ok { st3 with hole_memory := upd st3.hole_memory l (some probe) }
        | none => .ok st3
  else .error .invalidProbe

/-- Dictionary lookup in a loaded JSON record (association list in key
insertion order). -/
def lookupRec (rec : List (String × Option String)) (q : String) :
    Option String :=
  match rec.find? (fun kv => kv.1 = q) with
  | some kv => kv.2
  | none => none

/-- `targets_to_disk(probe_memory)` followed by `targets_from_disk`: the JSON
round trip preserves the probe→label dictionary exactly (string / null values
only; `sort_keys=True` sorts the keys, and `'A'..'F'` are already sorted). -/
def targets_record (st : State) : List (String × Option String) :=
  probes.map (fun p => (p, st.probe_memory p))

/-- `ImplantSVG.load_targets`, transcribed with its actual control flow:
`if targets := self.targets_from_disk(path):` (falsy = empty record →
no-op); `self.probe_memory = targets` (wholesale replacement, no validation);
then `for label in self.strings: for k,v in self.probe_memory.items():
if v == label: self.hole_memory[label] = k` followed by a `for`/`else`
clause on the inner loop — the loop contains no `break`, so the `else` body
`self.hole_memory[label] = None` executes for every `label`. -/
def load_targets (st : State) (targets : List (String × Option String)) :
    State :=
  if targets = [] then st
  else
    let st1 : State := { st with probe_memory := fun q => lookupRec targets q }
    strings.foldl
      (fun s label =>
        let s2 := targets.foldl
          (fun acc kv =>
            if kv.2 = some label then
              { acc with hole_memory := upd acc.hole_memory label (some kv.1) }
            else acc) s
        { s2 with hole_memory := upd s2.hole_memory label none })
      st1

/-- Modelled from the spec: `LabelSpace.index_of(label)`, the position of a
label in the derived `labels` sequence (the inverse of `label_at`); the class
itself only exposes the direction `index_to_label`. -/
def index_of_of (strs : List String) (l : String) : Except Err Nat :=
  match strs.indexOf? l with
  | some i => .ok i
  | none => .error .invalidLabel

/-- Analysis device: the state after the step
`if current_label := self.probe_memory[probe]: self.hole_memory[current_label] = None`
of `set_probe_hole` (called `st1` in the transcription above). -/
def clearCurrent (st : State) (p : String) : State :=
  match st.probe_memory p with
  | some cur => { st with hole_memory := upd st.hole_memory cur none }
  | none => st

/-- Analysis device: the state after the displacement loop of `set_probe_hole`
(called `st2` in the transcription above). -/
def midState (st : State) (p l : String) : State :=
  let st1 := clearCurrent st p
  if some l ∈ probes.map st1.probe_memory then displace l st1 probes else st1

/-- The placeholder marker for a hole label inside the SVG text: the pattern
`f">{textlabel}</tspan>"` that `show_memory` and `show_targets` search for. -/
def marker (l : String) : List Char := '>' :: l.data ++ "</tspan>".data

/-- The replacement `f"></tspan>"` used for an unassigned hole. -/
def blankRep : List Char := "></tspan>".data

/-- The replacement `f"> {textlabel}</tspan>"` used for an assigned hole. -/
def probeRep (tl : String) : List Char := '>' :: ' ' :: tl.data ++ "</tspan>".data

/-- The replacement text `show_memory` uses for a given hole. -/
def holeRep (st : State) (hole : String) : List Char :=
  match st.hole_memory hole with
  | none => blankRep
  | some tl => probeRep tl

/-- Python `str.replace(pat, rep)`: replace every non-overlapping occurrence,
scanning left to right.  (Python's behaviour for an empty pattern is never
exercised: all patterns used are placeholder markers.) -/
def replaceAll (pat rep : List Char) (s : List Char) : List Char :=
  match s with
  | [] => []
  | c :: s' =>
    if h : pat ≠ [] ∧ pat <+: (c :: s') then
      rep ++ replaceAll pat rep ((c :: s').drop pat.length)
    else
      c :: replaceAll pat rep s'
termination_by s.length
decreasing_by
  · simp only [List.length_drop, List.length_cons]
    have := List.length_pos.mpr h.1
    omega
  · simp

/-- `ImplantSVG.show_memory`: starting from the template, for each hole in
`hole_memory` (keys in `strings` order) replace its marker with the blank or
probe replacement. -/
def show_memory (st : State) (svg : List Char) : List Char :=
  strings.foldl
    (fun data hole =>
      match st.hole_memory hole with
      | none => replaceAll (marker hole) blankRep data
      | some textlabel => replaceAll (marker hole) (probeRep textlabel) data)
    svg

/-- A diagram template, decomposed into inert segments and per-label
placeholder markers (spec §4.3: the template carries one well-defined,
findable placeholder marker per label). -/
inductive Chunk where
  | seg (s : List Char)
  | ph (l : String)
deriving DecidableEq, Repr

/-- The text of a chunk. -/
def Chunk.flat : Chunk → List Char
  | .seg s => s
  | .ph l => marker l

/-- The template text of a chunk decomposition. -/
def assemble : List Chunk → List Char
  | [] => []
  | c :: cs => c.flat ++ assemble cs

/-- `pat` occurs in `s` at position `i`. -/
def occursAt (pat s : List Char) (i : Nat) : Prop := pat <+: s.drop i

/-- Start positions of the `ph l` chunks inside the assembled template. -/
def phStarts (l : String) : List Chunk → List Nat
  | [] => []
  | c :: cs =>
    (if c = .ph l then [0] else []) ++ (phStarts l cs).map (· + c.flat.length)

/-- The marker of label `l` occurs in the assembled template only where the
decomposition places a `ph l` chunk: the placeholder is a well-defined,
unambiguous substring (spec §4.3). -/
def goodFor (l : String) (cs : List Chunk) : Prop :=
  ∀ i < (assemble cs).length,
    occursAt (marker l) (assemble cs) i → i ∈ phStarts l cs

instance decOccursAt (pat s : List Char) (i : Nat) :
    Decidable (occursAt pat s i) :=
  inferInstanceAs (Decidable (pat <+: s.drop i))

instance decGoodFor (l : String) (cs : List Chunk) :
    Decidable (goodFor l cs) :=
  inferInstanceAs (Decidable (∀ i < (assemble cs).length,
    occursAt (marker l) (assemble cs) i → i ∈ phStarts l cs))

/-- Replace the `ph l` chunks by an inert segment `r`. -/
def replacePh (l : String) (r : List Char) (c : Chunk) : Chunk :=
  if c = .ph l then .seg r else c

/-- The substitution the spec describes: each placeholder becomes the probe
marker of the assigned probe, or the blank marker; segments are untouched. -/
def substChunk (st : State) : Chunk → Chunk
  | .seg s => .seg s
  | .ph l => .seg (holeRep st l)

/-- The replacement strings `show_memory` can produce: the blank marker or a
probe marker. -/
def RepOk (r : List Char) : Prop :=
  r = blankRep ∨ ∃ p ∈ probes, r = probeRep p

/-- Substitution restricted to the labels in `L` (the labels processed so far
by the rendering fold). -/
def substOn (st : State) (L : List String) (c : Chunk) : Chunk :=
  match c with
  | .seg s => .seg s
  | .ph l => if l ∈ L then .seg (holeRep st l) else .ph l

/-- Number of `ph l` chunks in the decomposition. -/
def countPh (l : String) (cs : List Chunk) : Nat :=
  cs.countP (fun c => c = .ph l)

/-- Every label referenced by a placeholder is a label of the shield. -/
def PhLabelsOk (cs : List Chunk) : Prop :=
  ∀ l, Chunk.ph l ∈ cs → l ∈ strings

/-- Every assigned hole holds a real probe identifier (true of every
reachable store). -/
def HoleValuesOk (st : State) : Prop :=
  ∀ l p, st.hole_memory l = some p → p ∈ probes

/-- The bidirectional-consistency invariant of §3 of the spec:
`hole_memory` is exactly the inverse of `probe_memory` restricted to
non-`None` values, every assigned probe is a real probe and every assigned
label a real label.  (Uniqueness of the probe occupying a label follows:
two probes mapped to `l` would both have to equal `hole_memory l`.) -/
def Inv (st : State) : Prop :=
  (∀ p l, st.probe_memory p = some l →
      p ∈ probes ∧ l ∈ strings ∧ st.hole_memory l = some p) ∧
  (∀ l p, st.hole_memory l = some p → st.probe_memory p = some l)

/-- States reachable from a fresh store by successful `set_probe_hole` calls. -/
inductive Reachable : State → Prop
  | init : Reachable initState
  | step {st st' : State} {p : String} {h : HoleArg} :
      Reachable st → set_probe_hole st p h = .ok st' → Reachable st'

/-! ### Basic lemmas about the embedding -/

theorem upd_self (f : String → Option String) (k : String) (v : Option String) :
    upd f k v k = v := by simp [upd]

theorem upd_ne (f : String → Option String) {k x : String} (v : Option String)
    (h : x ≠ k) : upd f k v x = f x := by simp [upd, h]

theorem strings_eq :
    strings = ["A1", "A2", "A3", "B1", "B2", "B3", "B4", "C1", "C2", "C3",
      "C4", "D1", "D2", "D3", "E1", "E2", "E3", "E4", "F1", "F2", "F3"] := rfl

theorem lower_none_not_mem {s : String} (hs : pyLower s = "none") :
    s ∉ strings := by
  intro mem
  rw [strings_eq] at mem
  fin_cases mem <;> exact absurd hs (by decide)

theorem resolve_label_some_mem {h : HoleArg} {l : String}
    (hres : resolve_label h = .ok (some l)) : l ∈ strings := by
  cases h with
  | noneArg => simp [resolve_label] at hres
  | intArg i =>
    simp only [resolve_label, index_to_label, index_to_label_of] at hres
    by_cases hb : 0 ≤ i ∧ i < (strings.length : Int)
    · have hlt : i.toNat < strings.length := by omega
      simp only [hb, if_true] at hres
      obtain rfl : strings.getD i.toNat "" = l := by
        cases hres; rfl
      rw [List.getD_eq_getElem strings "" hlt]
      exact List.getElem_mem hlt
    · simp [hb] at hres
  | strArg s =>
    simp only [resolve_label] at hres
    by_cases h1 : s ∈ strings
    · simp only [h1, if_true] at hres
      cases hres; exact h1
    · by_cases h2 : pyLower s = "none" <;> simp [h1, h2] at hres

theorem unassign_probe_eq_some {st : State} {p cur : String} (hp : p ∈ probes)
    (hcur : st.probe_memory p = some cur) :
    unassign_probe st p =
      .ok ⟨upd st.probe_memory p none, upd st.hole_memory cur none⟩ := by
  unfold unassign_probe
  simp [hp, hcur]

theorem unassign_probe_eq_none {st : State} {p : String} (hp : p ∈ probes)
    (hcur : st.probe_memory p = none) : unassign_probe st p = .ok st := by
  unfold unassign_probe
  simp [hp, hcur]

theorem set_probe_hole_of_resolve_none {st : State} {p : String} {h : HoleArg}
    (hres : resolve_label h = .ok none) :
    set_probe_hole st p h = unassign_probe st p := by
  unfold set_probe_hole unassign_probe
  by_cases hp : p ∈ probes
  · simp only [hp, if_true, hres]
  · simp [hp]

theorem inv_init : Inv initState := by
  constructor
  · intro p l h; simp [initState] at h
  · intro l p h; simp [initState] at h

theorem inv_unassign {st st' : State} {p : String} (hInv : Inv st)
    (hok : unassign_probe st p = .ok st') : Inv st' := by
  by_cases hp : p ∈ probes
  · cases hpm : st.probe_memory p with
    | none =>
      rw [unassign_probe_eq_none hp hpm] at hok
      cases hok; exact hInv
    | some cur =>
      rw [unassign_probe_eq_some hp hpm] at hok
      cases hok
      obtain ⟨hfwd, hbwd⟩ := hInv
      constructor
      · intro q m hq
        dsimp only at hq ⊢
        by_cases hqp : q = p
        · subst hqp; rw [upd_self] at hq; cases hq
        · rw [upd_ne _ _ hqp] at hq
          obtain ⟨hq1, hq2, hq3⟩ := hfwd q m hq
          refine ⟨hq1, hq2, ?_⟩
          have hmcur : m ≠ cur := by
            intro hmc
            obtain ⟨_, _, hcur3⟩ := hfwd p cur hpm
            rw [hmc] at hq3
            rw [hq3] at hcur3
            cases hcur3
            exact hqp rfl
          rw [upd_ne _ _ hmcur]
          exact hq3
      · intro m q hq
        dsimp only at hq ⊢
        by_cases hmc : m = cur
        · subst hmc; rw [upd_self] at hq; cases hq
        · rw [upd_ne _ _ hmc] at hq
          have hpmq := hbwd m q hq
          by_cases hqp : q = p
          · subst hqp; rw [hpm] at hpmq
            cases hpmq; exact absurd rfl hmc
          · rw [upd_ne _ _ hqp]
            exact hpmq
  · unfold unassign_probe at hok
    simp [hp] at hok

theorem clearCurrent_pm (st : State) (p : String) :
    (clearCurrent st p).probe_memory = st.probe_memory := by
  unfold clearCurrent
  cases st.probe_memory p <;> rfl

/-- What the displacement loop does to the state: probe entries equal to the
target label are cleared (and only those), the inverse entry of the target
label is possibly cleared, and no other hole entry changes. -/
theorem displace_spec (l : String) (rest : List String)
    (hrest : ∀ q ∈ rest, q ∈ probes) (st : State) :
    (∀ q, (displace l st rest).probe_memory q =
        if q ∈ rest ∧ st.probe_memory q = some l then none
        else st.probe_memory q) ∧
    (∀ m, m ≠ l → (displace l st rest).hole_memory m = st.hole_memory m) ∧
    ((displace l st rest).hole_memory l = st.hole_memory l ∨
      (displace l st rest).hole_memory l = none) := by
  induction rest generalizing st with
  | nil => simp [displace]
  | cons q rest ih =>
    have hq : q ∈ probes := hrest q (List.mem_cons_self ..)
    have hrest' : ∀ x ∈ rest, x ∈ probes := fun x hx =>
      hrest x (List.mem_cons_of_mem _ hx)
    by_cases hpm : st.probe_memory q = some l
    · have hstep : displace l st (q :: rest) =
          displace l ⟨upd st.probe_memory q none, upd st.hole_memory l none⟩
            rest := by
        simp only [displace, if_pos hpm, unassign_probe_eq_some hq hpm]
      obtain ⟨ihA, ihB, ihC⟩ :=
        ih hrest' ⟨upd st.probe_memory q none, upd st.hole_memory l none⟩
      rw [hstep]
      refine ⟨?_, ?_, ?_⟩
      · intro x
        rw [ihA x]
        dsimp only
        by_cases hxq : x = q
        · subst hxq
          rw [upd_self]
          simp [hpm]
        · rw [upd_ne _ _ hxq]
          by_cases hc : x ∈ rest ∧ st.probe_memory x = some l <;>
            simp [List.mem_cons, hxq, hc]
      · intro m hm
        rw [ihB m hm]
        dsimp only
        rw [upd_ne _ _ hm]
      · rcases ihC with hC | hC
        · rw [hC]
          dsimp only
          rw [upd_self]
          exact Or.inr rfl
        · exact Or.inr hC
    · have hstep : displace l st (q :: rest) = displace l st rest := by
        simp only [displace, if_neg hpm]
      obtain ⟨ihA, ihB, ihC⟩ := ih hrest' st
      rw [hstep]
      refine ⟨?_, ihB, ihC⟩
      intro x
      rw [ihA x]
      by_cases hxq : x = q
      · subst hxq
        simp [hpm]
      · by_cases hc : x ∈ rest ∧ st.probe_memory x = some l <;>
          simp [List.mem_cons, hxq, hc]

/-- Equation for `set_probe_hole` when the argument resolves to a real label
that the probe does not already hold: the final state assigns
`probe_memory[p] = l` and `hole_memory[l] = p` on top of `midState`. -/
theorem set_probe_hole_eq_some {st : State} {p l : String} {h : HoleArg}
    (hp : p ∈ probes) (hres : resolve_label h = .ok (some l))
    (hne : st.probe_memory p ≠ some l) :
    set_probe_hole st p h =
      .ok ⟨upd (midState st p l).probe_memory p (some l),
           upd (midState st p l).hole_memory l (some p)⟩ := by
  unfold set_probe_hole midState clearCurrent
  simp only [hp, if_true, hres]
  rw [if_neg hne]

/-- The facts about `midState` needed to re-establish the invariant after an
assignment: the target probe's entry is untouched, no probe holds the target
label any more, all other assignments keep their inverse entries, and no hole
entry points at the target probe. -/
theorem midState_facts {st : State} {p l : String} (hInv : Inv st)
    (hne : st.probe_memory p ≠ some l) :
    (midState st p l).probe_memory p = st.probe_memory p ∧
    (∀ q, (midState st p l).probe_memory q ≠ some l) ∧
    (∀ q m, q ≠ p → (midState st p l).probe_memory q = some m →
        q ∈ probes ∧ m ∈ strings ∧ (midState st p l).hole_memory m = some q) ∧
    (∀ m, (midState st p l).hole_memory m ≠ some p) ∧
    (∀ m q, m ≠ l → (midState st p l).hole_memory m = some q →
        (midState st p l).probe_memory q = some m) ∧
    (∀ q, (midState st p l).probe_memory q = st.probe_memory q ∨
        (st.probe_memory q = some l ∧ (midState st p l).probe_memory q = none)) := by
  obtain ⟨hfwd, hbwd⟩ := hInv
  -- facts about the intermediate state `clearCurrent st p`
  have hS1 : (clearCurrent st p).probe_memory = st.probe_memory :=
    clearCurrent_pm st p
  have hS2 : ∀ m q, (clearCurrent st p).hole_memory m = some q →
      st.hole_memory m = some q := by
    intro m q hq
    unfold clearCurrent at hq
    cases hpm : st.probe_memory p with
    | none => rw [hpm] at hq; exact hq
    | some cur =>
      rw [hpm] at hq
      dsimp only at hq
      by_cases hmc : m = cur
      · subst hmc; rw [upd_self] at hq; cases hq
      · rw [upd_ne _ _ hmc] at hq; exact hq
  have hS3 : ∀ m, (clearCurrent st p).hole_memory m ≠ some p := by
    intro m hq
    have hst : st.hole_memory m = some p := hS2 m p hq
    have hpmm : st.probe_memory p = some m := hbwd m p hst
    unfold clearCurrent at hq
    rw [hpmm] at hq
    dsimp only at hq
    have hmm : m ≠ m → False := fun hc => hc rfl
    by_cases hmc : m = m
    · rw [hmc, upd_self] at hq
      cases hq
    · exact hmm hmc
  have hS4 : ∀ q m, q ≠ p → (clearCurrent st p).probe_memory q = some m →
      q ∈ probes ∧ m ∈ strings ∧ (clearCurrent st p).hole_memory m = some q := by
    intro q m hqp hq
    rw [hS1] at hq
    obtain ⟨hq1, hq2, hq3⟩ := hfwd q m hq
    refine ⟨hq1, hq2, ?_⟩
    unfold clearCurrent
    cases hpm : st.probe_memory p with
    | none => exact hq3
    | some cur =>
      dsimp only
      have hmc : m ≠ cur := by
        intro hc
        obtain ⟨_, _, hc3⟩ := hfwd p cur hpm
        rw [hc] at hq3
        rw [hq3] at hc3
        cases hc3
        exact hqp rfl
      rw [upd_ne _ _ hmc]
      exact hq3
  have hS5 : ∀ m q, (clearCurrent st p).hole_memory m = some q →
      st.probe_memory q = some m := fun m q hq => hbwd m q (hS2 m q hq)
  have hpm_ne : ∀ q, q ∉ probes → st.probe_memory q ≠ some l := by
    intro q hq hc
    exact hq (hfwd q l hc).1
  unfold midState
  by_cases hmem : some l ∈ probes.map (clearCurrent st p).probe_memory
  · simp only [hmem, if_true]
    obtain ⟨hA, hB, hC⟩ :=
      displace_spec l probes (fun q hq => hq) (clearCurrent st p)
    refine ⟨?_, ?_, ?_, ?_, ?_, ?_⟩
    · rw [hA p, hS1]
      have : ¬ (p ∈ probes ∧ st.probe_memory p = some l) := fun hc => hne hc.2
      rw [if_neg this]
    · intro q
      rw [hA q, hS1]
      by_cases hc : q ∈ probes ∧ st.probe_memory q = some l
      · simp [hc]
      · rw [if_neg hc]
        intro hcl
        by_cases hqpr : q ∈ probes
        · exact hc ⟨hqpr, hcl⟩
        · exact hpm_ne q hqpr hcl
    · intro q m hqp hq
      rw [hA q, hS1] at hq
      by_cases hc : q ∈ probes ∧ st.probe_memory q = some l
      · rw [if_pos hc] at hq; cases hq
      · rw [if_neg hc] at hq
        have hq' : (clearCurrent st p).probe_memory q = some m := by
          rw [hS1]; exact hq
        obtain ⟨hq1, hq2, hq3⟩ := hS4 q m hqp hq'
        refine ⟨hq1, hq2, ?_⟩
        have hml : m ≠ l := by
          intro hc'
          rw [hc'] at hq
          exact hc ⟨hq1, hq⟩
        rw [hB m hml]
        exact hq3
    · intro m hq
      by_cases hml : m = l
      · subst hml
        rcases hC with hC | hC
        · rw [hC] at hq; exact hS3 m hq
        · rw [hC] at hq; cases hq
      · rw [hB m hml] at hq
        exact hS3 m hq
    · intro m q hml hq
      rw [hB m hml] at hq
      have hpmq : st.probe_memory q = some m := hS5 m q hq
      rw [hA q, hS1]
      have : ¬ (q ∈ probes ∧ st.probe_memory q = some l) := by
        intro hc
        rw [hpmq] at hc
        cases hc.2
        exact hml rfl
      rw [if_neg this]
      exact hpmq
    · intro q
      rw [hA q, hS1]
      by_cases hc : q ∈ probes ∧ st.probe_memory q = some l
      · rw [if_pos hc]
        exact Or.inr ⟨hc.2, rfl⟩
      · rw [if_neg hc]
        exact Or.inl rfl
  · simp only [hmem, if_false]
    have hnol : ∀ q, (clearCurrent st p).probe_memory q ≠ some l := by
      intro q hq
      rw [hS1] at hq
      by_cases hqpr : q ∈ probes
      · exact hmem (by
          rw [← hS1] at hq
          exact List.mem_map.mpr ⟨q, hqpr, hq⟩)
      · exact hpm_ne q hqpr hq
    exact ⟨congrFun hS1 p, hnol, hS4, hS3,
      fun m q _ hq => by rw [hS1]; exact hS5 m q hq,
      fun q => Or.inl (congrFun hS1 q)⟩

/-- A successful `set_probe_hole` preserves the bidirectional-consistency
invariant. -/
theorem inv_step {st st' : State} {p : String} {h : HoleArg} (hInv : Inv st)
    (hok : set_probe_hole st p h = .ok st') : Inv st' := by
  by_cases hp : p ∈ probes
  · cases hres : resolve_label h with
    | error e =>
      unfold set_probe_hole at hok
      rw [if_pos hp, hres] at hok
      cases hok
    | ok label =>
      cases label with
      | none =>
        rw [set_probe_hole_of_resolve_none hres] at hok
        exact inv_unassign hInv hok
      | some l =>
        by_cases hne : st.probe_memory p = some l
        · unfold set_probe_hole at hok
          rw [if_pos hp, hres] at hok
          dsimp only at hok
          rw [if_pos hne] at hok
          cases hok
          exact hInv
        · rw [set_probe_hole_eq_some hp hres hne] at hok
          cases hok
          obtain ⟨hM1, hM2, hM3, hM4, hM5, _⟩ := midState_facts ⟨hInv.1, hInv.2⟩ hne
          have hl : l ∈ strings := resolve_label_some_mem hres
          constructor
          · intro q m hq
            dsimp only at hq ⊢
            by_cases hqp : q = p
            · subst hqp
              rw [upd_self] at hq
              cases hq
              exact ⟨hp, hl, by rw [upd_self]⟩
            · rw [upd_ne _ _ hqp] at hq
              obtain ⟨hq1, hq2, hq3⟩ := hM3 q m hqp hq
              have hml : m ≠ l := by
                intro hc
                rw [hc] at hq
                exact hM2 q hq
              refine ⟨hq1, hq2, ?_⟩
              rw [upd_ne _ _ hml]
              exact hq3
          · intro m q hq
            dsimp only at hq ⊢
            by_cases hml : m = l
            · subst hml
              rw [upd_self] at hq
              cases hq
              rw [upd_self]
            · rw [upd_ne _ _ hml] at hq
              have hqp : q ≠ p := by
                intro hc
                rw [hc] at hq
                exact hM4 m hq
              rw [upd_ne _ _ hqp]
              exact hM5 m q hml hq
  · unfold set_probe_hole at hok
    rw [if_neg hp] at hok
    cases hok

/-- Postcondition of assigning a valid label to a valid probe on an
invariant-satisfying store: the call succeeds, both directions of the mapping
report the new assignment, and the invariant is preserved. -/
theorem assign_label_post {st : State} {p l : String} (hInv : Inv st)
    (hp : p ∈ probes) (hl : l ∈ strings) :
    ∃ st', set_probe_hole st p (.strArg l) = .ok st' ∧
      st'.probe_memory p = some l ∧ st'.hole_memory l = some p ∧ Inv st' := by
  have hres : resolve_label (.strArg l) = .ok (some l) := by
    simp [resolve_label, hl]
  by_cases hne : st.probe_memory p = some l
  · refine ⟨st, ?_, hne, (hInv.1 p l hne).2.2, hInv⟩
    unfold set_probe_hole
    rw [if_pos hp, hres]
    dsimp only
    rw [if_pos hne]
  · refine ⟨_, set_probe_hole_eq_some hp hres hne, ?_, ?_, ?_⟩
    · dsimp only
      rw [upd_self]
    · dsimp only
      rw [upd_self]
    · exact inv_step hInv (set_probe_hole_eq_some hp hres hne)

/-! ### Claim theorems -/

/-- Claim C1: for every AssignmentStore created fresh with all probes
unassigned and every sequence of successful `assign` calls, the
bidirectional-consistency invariant holds afterwards: `hole_memory` is
exactly the inverse of `probe_memory` restricted to non-`None` values, and at
most one probe maps to any given label. -/
theorem c1_bidirectional_invariant (st : State) (h : Reachable st) : Inv st := by
  induction h with
  | init => exact inv_init
  | step _ hok ih => exact inv_step ih hok

theorem c1_witness :
    ∃ st, set_probe_hole initState "A" (.strArg "B2") = .ok st ∧ Inv st :=
  ⟨_, rfl, c1_bidirectional_invariant _
    (@Reachable.step initState _ "A" (.strArg "B2") Reachable.init rfl)⟩

/-- Claim C2: immediately after a successful `assign(p, L)` with valid
arguments, the store reports `current_label(p) = L` and
`current_probe(L) = p`. -/
theorem c2_assign_reports (st : State) (p l : String) (hInv : Inv st)
    (hp : p ∈ probes) (hl : l ∈ strings) :
    ∃ st', set_probe_hole st p (.strArg l) = .ok st' ∧
      st'.probe_memory p = some l ∧ st'.hole_memory l = some p := by
  obtain ⟨st', h1, h2, h3, _⟩ := assign_label_post hInv hp hl
  exact ⟨st', h1, h2, h3⟩

theorem c2_witness :
    ∃ st', set_probe_hole initState "A" (.strArg "B2") = .ok st' ∧
      st'.probe_memory "A" = some "B2" ∧ st'.hole_memory "B2" = some "A" :=
  c2_assign_reports initState "A" "B2" inv_init (by decide) (by decide)

/-- Claim C3: after `assign(p1, L)` then `assign(p2, L)` with `p1 ≠ p2`, the
store reports `current_label(p1) = None` and `current_probe(L) = p2`, and the
displacement cascade removes exactly the one probe `p1`: every probe other
than `p1` and `p2` keeps the assignment it had before the second call. -/
theorem c3_displacement (st : State) (p1 p2 l : String) (hInv : Inv st)
    (hp1 : p1 ∈ probes) (hp2 : p2 ∈ probes) (hne : p1 ≠ p2)
    (hl : l ∈ strings) :
    ∃ st1 st2, set_probe_hole st p1 (.strArg l) = .ok st1 ∧
      set_probe_hole st1 p2 (.strArg l) = .ok st2 ∧
      st2.probe_memory p1 = none ∧ st2.hole_memory l = some p2 ∧
      ∀ q, q ≠ p1 → q ≠ p2 → st2.probe_memory q = st1.probe_memory q := by
  obtain ⟨st1, h1, hpm1, hhm1, hInv1⟩ := assign_label_post hInv hp1 hl
  have honly : ∀ q, st1.probe_memory q = some l → q = p1 := by
    intro q hq
    have h3 := (hInv1.1 q l hq).2.2
    rw [hhm1] at h3
    cases h3
    rfl
  have hne2 : st1.probe_memory p2 ≠ some l := by
    intro hc
    exact hne ((honly p2 hc).symm)
  have hres : resolve_label (.strArg l) = .ok (some l) := by
    simp [resolve_label, hl]
  obtain ⟨hM1, hM2, hM3, hM4, hM5, hM6⟩ := midState_facts hInv1 hne2
  refine ⟨st1, _, h1, set_probe_hole_eq_some hp2 hres hne2, ?_, ?_, ?_⟩
  · dsimp only
    rw [upd_ne _ _ hne]
    rcases hM6 p1 with hc | hc
    · exact absurd (hc.trans hpm1) (hM2 p1)
    · exact hc.2
  · dsimp only
    rw [upd_self]
  · intro q hq1 hq2
    dsimp only
    rw [upd_ne _ _ hq2]
    rcases hM6 q with hc | hc
    · exact hc
    · exact absurd (honly q hc.1) hq1

theorem c3_witness :
    ∃ st1 st2, set_probe_hole initState "A" (.strArg "B2") = .ok st1 ∧
      set_probe_hole st1 "C" (.strArg "B2") = .ok st2 ∧
      st2.probe_memory "A" = none ∧ st2.hole_memory "B2" = some "C" ∧
      ∀ q, q ≠ "A" → q ≠ "C" → st2.probe_memory q = st1.probe_memory q :=
  c3_displacement initState "A" "C" "B2" inv_init (by decide) (by decide)
    (by decide) (by decide)

/-- Claim C9: `assign` is idempotent: if probe `p` is already assigned exactly
the value `v` (a label or `None`), assigning `v` again returns the store
unchanged. -/
theorem c9_idempotent (st : State) (p : String) (v : Option String)
    (hp : p ∈ probes) (hv : v = none ∨ ∃ s, v = some s ∧ s ∈ strings)
    (hcur : st.probe_memory p = v) :
    set_probe_hole st p (holeArgOf v) = .ok st := by
  have hres : resolve_label (holeArgOf v) = .ok v := by
    rcases hv with rfl | ⟨s, rfl, hs⟩
    · rfl
    · simp [holeArgOf, resolve_label, hs]
  unfold set_probe_hole
  rw [if_pos hp, hres]
  dsimp only
  rw [if_pos hcur]

theorem c9_witness :
    ∃ st, set_probe_hole initState "A" (.strArg "A1") = .ok st ∧
      set_probe_hole st "A" (holeArgOf (some "A1")) = .ok st :=
  ⟨_, rfl, c9_idempotent _ "A" (some "A1") (by decide)
    (Or.inr ⟨"A1", rfl, by decide⟩) rfl⟩

/-- Claim C10: for a valid probe `p` and any string `s` whose lowercase form
is `"none"`, `assign(p, s)` does not fail with InvalidLabel even though `s`
is not a member of the label space: it behaves exactly like
`assign(p, None)`, unassigning the probe. -/
theorem c10_none_string (st : State) (p s : String) (hp : p ∈ probes)
    (hs : pyLower s = "none") :
    s ∉ strings ∧
    set_probe_hole st p (.strArg s) = set_probe_hole st p .noneArg ∧
    ∃ st', set_probe_hole st p (.strArg s) = .ok st' ∧
      st'.probe_memory p = none := by
  have hns := lower_none_not_mem hs
  have hres : resolve_label (.strArg s) = .ok none := by
    simp [resolve_label, hns, hs]
  have heq : set_probe_hole st p (.strArg s) = set_probe_hole st p .noneArg := by
    rw [set_probe_hole_of_resolve_none hres,
      @set_probe_hole_of_resolve_none st p .noneArg rfl]
  refine ⟨hns, heq, ?_⟩
  rw [set_probe_hole_of_resolve_none hres]
  cases hpm : st.probe_memory p with
  | none => exact ⟨st, unassign_probe_eq_none hp hpm, hpm⟩
  | some cur =>
    refine ⟨_, unassign_probe_eq_some hp hpm, ?_⟩
    dsimp only
    rw [upd_self]

theorem c10_witness :
    "NONE" ∉ strings ∧
    set_probe_hole initState "A" (.strArg "NONE") =
      set_probe_hole initState "A" .noneArg ∧
    ∃ st', set_probe_hole initState "A" (.strArg "NONE") = .ok st' ∧
      st'.probe_memory "A" = none :=
  c10_none_string initState "A" "NONE" (by decide) (by decide)

/-- Claim C8: an integer index outside `[0, len(strings))` makes the
conversion fail with IndexOutOfRange, and `assign(p, index)` with such an
index fails with IndexOutOfRange; the failure is raised before any state is
touched, so no new store is produced. -/
theorem c8_index_out_of_range (st : State) (p : String) (i : Int)
    (hp : p ∈ probes) (hi : i < 0 ∨ (strings.length : Int) ≤ i) :
    index_to_label i = .error .indexOutOfRange ∧
    set_probe_hole st p (.intArg i) = .error .indexOutOfRange := by
  have hb : ¬ (0 ≤ i ∧ i < (strings.length : Int)) := by omega
  have hidx : index_to_label i = .error .indexOutOfRange := by
    simp [index_to_label, index_to_label_of, hb]
  have hres : resolve_label (.intArg i) = .error .indexOutOfRange := by
    simp [resolve_label, hidx]
  refine ⟨hidx, ?_⟩
  unfold set_probe_hole
  rw [if_pos hp, hres]

theorem c8_witness :
    index_to_label 99 = .error .indexOutOfRange ∧
    set_probe_hole initState "A" (.intArg 99) = .error .indexOutOfRange :=
  c8_index_out_of_range initState "A" 99 (by decide) (by decide)

/-- Claim C7 counterexample: on the label space `{A:[1,2,3], B:[1,2,3,4]}`
the derived sequence is `[A1,A2,A3,B1,B2,B3,B4]`, but `index_of("B2")` is 4,
not 5, and `label_at(5)` is `"B3"`, not `"B2"` (the code's own docstring:
`4 -> B2, 5 -> B3`). -/
theorem c7_counterexample :
    stringsOf [("A", [1, 2, 3]), ("B", [1, 2, 3, 4])] =
      ["A1", "A2", "A3", "B1", "B2", "B3", "B4"] ∧
    index_of_of (stringsOf [("A", [1, 2, 3]), ("B", [1, 2, 3, 4])]) "B2" ≠
      .ok 5 ∧
    index_to_label_of (stringsOf [("A", [1, 2, 3]), ("B", [1, 2, 3, 4])]) 5 ≠
      .ok "B2" := by
  have e1 : index_of_of (stringsOf [("A", [1, 2, 3]), ("B", [1, 2, 3, 4])])
      "B2" = .ok 4 := rfl
  have e2 : index_to_label_of
      (stringsOf [("A", [1, 2, 3]), ("B", [1, 2, 3, 4])]) 5 = .ok "B3" := rfl
  refine ⟨rfl, ?_, ?_⟩
  · rw [e1]
    intro h
    injection h with h'
    exact absurd h' (by decide)
  · rw [e2]
    intro h
    injection h with h'
    exact absurd h' (by decide)

/-- Claim C7 amended: on `{A:[1,2,3], B:[1,2,3,4]}` the derived sequence is
`[A1,A2,A3,B1,B2,B3,B4]`, `index_of("B2") = 4` and `label_at(4) = "B2"`
(indices are 0-based, so `"B2"` sits at 4, not 5). -/
theorem c7_amended :
    stringsOf [("A", [1, 2, 3]), ("B", [1, 2, 3, 4])] =
      ["A1", "A2", "A3", "B1", "B2", "B3", "B4"] ∧
    index_of_of (stringsOf [("A", [1, 2, 3]), ("B", [1, 2, 3, 4])]) "B2" =
      .ok 4 ∧
    index_to_label_of (stringsOf [("A", [1, 2, 3]), ("B", [1, 2, 3, 4])]) 4 =
      .ok "B2" :=
  ⟨rfl, rfl, rfl⟩

/-- Claim C4 (code bug): a record built by the single valid call
`assign("A", "A1")`, serialised and reloaded, reproduces the probe→label
mapping, but `load_targets` leaves `hole_memory["A1"] = None` instead of the
inverse value `"A"`: the `for`/`else` in `load_targets` runs its `else`
branch after every completed inner loop (there is no `break`), overwriting
the just-derived inverse entry. -/
theorem c4_roundtrip_divergence :
    ∃ st, set_probe_hole initState "A" (.strArg "A1") = .ok st ∧
      st.probe_memory "A" = some "A1" ∧ st.hole_memory "A1" = some "A" ∧
      (∀ p ∈ probes,
        (load_targets initState (targets_record st)).probe_memory p =
          st.probe_memory p) ∧
      (load_targets initState (targets_record st)).hole_memory "A1" = none :=
  ⟨_, rfl, rfl, rfl, by decide, rfl⟩

/-- Claim C6 counterexample: the structured value `{"Z": "QQ"}` violates both
conditions (probe key not in the probe set, label not in the label space),
yet loading it does not fail: the record is installed verbatim. -/
theorem c6_counterexample :
    "Z" ∉ probes ∧ "QQ" ∉ strings ∧
    (load_targets initState [("Z", some "QQ")]).probe_memory "Z" =
      some "QQ" :=
  ⟨by decide, by decide, rfl⟩

theorem load_inner_fold_pm (targets : List (String × Option String))
    (label : String) (s : State) :
    (targets.foldl
      (fun acc kv =>
        if kv.2 = some label then
          { acc with hole_memory := upd acc.hole_memory label (some kv.1) }
        else acc) s).probe_memory = s.probe_memory := by
  induction targets generalizing s with
  | nil => rfl
  | cons kv rest ih =>
    rw [List.foldl_cons, ih]
    by_cases hc : kv.2 = some label
    · rw [if_pos hc]
    · rw [if_neg hc]

theorem load_fold_pm (ls : List String)
    (targets : List (String × Option String)) (s : State) :
    (ls.foldl
      (fun s label =>
        let s2 := targets.foldl
          (fun acc kv =>
            if kv.2 = some label then
              { acc with hole_memory := upd acc.hole_memory label (some kv.1) }
            else acc) s
        { s2 with hole_memory := upd s2.hole_memory label none })
      s).probe_memory = s.probe_memory := by
  induction ls generalizing s with
  | nil => rfl
  | cons label rest ih =>
    rw [List.foldl_cons, ih]
    dsimp only
    rw [load_inner_fold_pm]

/-- Claim C6 amended: loading a persisted record performs no validation at
all: any non-empty record is installed verbatim as the probe→label mapping
(invalid probe keys and invalid labels included), and the load never fails
with MalformedRecord. -/
theorem c6_no_validation (st : State) (rec : List (String × Option String))
    (hrec : rec ≠ []) (q : String) :
    (load_targets st rec).probe_memory q = lookupRec rec q := by
  unfold load_targets
  rw [if_neg hrec]
  dsimp only
  rw [load_fold_pm]

theorem c6_witness :
    (load_targets initState [("Z", some "QQ")]).probe_memory "Z" =
      lookupRec [("Z", some "QQ")] "Z" :=
  c6_no_validation initState [("Z", some "QQ")] (by decide) "Z"

/-! ### Rendering: `replaceAll` and chunk decompositions -/

theorem replaceAll_nil (pat rep : List Char) : replaceAll pat rep [] = [] := by
  rw [replaceAll]

theorem replaceAll_cons_pos {pat : List Char} (rep : List Char) {c : Char}
    {s' : List Char} (h : pat ≠ [] ∧ pat <+: (c :: s')) :
    replaceAll pat rep (c :: s') =
      rep ++ replaceAll pat rep ((c :: s').drop pat.length) := by
  rw [replaceAll, dif_pos h]

theorem replaceAll_cons_neg {pat : List Char} (rep : List Char) {c : Char}
    {s' : List Char} (h : ¬ (pat ≠ [] ∧ pat <+: (c :: s'))) :
    replaceAll pat rep (c :: s') = c :: replaceAll pat rep s' := by
  rw [replaceAll, dif_neg h]

theorem replaceAll_pos {pat : List Char} (rep : List Char) {s : List Char}
    (hpat : pat ≠ []) (hpre : pat <+: s) (hs : s ≠ []) :
    replaceAll pat rep s = rep ++ replaceAll pat rep (s.drop pat.length) := by
  cases s with
  | nil => exact absurd rfl hs
  | cons c s' => exact replaceAll_cons_pos rep ⟨hpat, hpre⟩

/-- If no occurrence of the pattern starts inside the first `a.length`
positions, `replaceAll` copies `a` verbatim and continues on the rest. -/
theorem replaceAll_append_no_occ (pat rep : List Char) (a t : List Char)
    (h : ∀ i < a.length, ¬ pat <+: (a ++ t).drop i) :
    replaceAll pat rep (a ++ t) = a ++ replaceAll pat rep t := by
  induction a with
  | nil => rfl
  | cons c a' ih =>
    have h0 : ¬ pat <+: (c :: (a' ++ t)) := by
      have := h 0 (by simp)
      simpa using this
    rw [List.cons_append, replaceAll_cons_neg rep (fun hc => h0 hc.2)]
    congr 1
    refine ih (fun i hi => ?_)
    have := h (i + 1) (by simp; omega)
    simpa using this

theorem occursAt_lt_length {pat s : List Char} {i : Nat} (hpat : pat ≠ [])
    (h : occursAt pat s i) : i < s.length := by
  have hlen : pat.length ≤ (s.drop i).length := List.IsPrefix.length_le h
  rw [List.length_drop] at hlen
  have hpos : 0 < pat.length := List.length_pos.mpr hpat
  omega

theorem occursAt_add_length {pat s : List Char} {i : Nat} (hpat : pat ≠ [])
    (h : occursAt pat s i) : i + pat.length ≤ s.length := by
  have hlen : pat.length ≤ (s.drop i).length := List.IsPrefix.length_le h
  rw [List.length_drop] at hlen
  have hpos : 0 < pat.length := List.length_pos.mpr hpat
  omega

theorem occursAt_shift {pat a t : List Char} {j : Nat} :
    occursAt pat (a ++ t) (a.length + j) ↔ occursAt pat t j := by
  unfold occursAt
  rw [List.drop_append]

theorem marker_ne_nil (l : String) : marker l ≠ [] := by
  simp [marker]

/-- Positions recorded in `phStarts` really carry the marker. -/
theorem phStarts_occursAt {l : String} {cs : List Chunk} {i : Nat}
    (h : i ∈ phStarts l cs) : occursAt (marker l) (assemble cs) i := by
  induction cs generalizing i with
  | nil => simp [phStarts] at h
  | cons c cs ih =>
    unfold phStarts at h
    rw [List.mem_append] at h
    rcases h with h | h
    · by_cases hc : c = Chunk.ph l
      · rw [if_pos hc] at h
        simp only [List.mem_singleton] at h
        subst h
        subst hc
        show marker l <+: (assemble (Chunk.ph l :: cs)).drop 0
        rw [List.drop_zero]
        show marker l <+: (Chunk.ph l).flat ++ assemble cs
        exact List.prefix_append _ _
      · rw [if_neg hc] at h
        simp at h
    · rw [List.mem_map] at h
      obtain ⟨x, hx, rfl⟩ := h
      show occursAt (marker l) (c.flat ++ assemble cs) (x + c.flat.length)
      rw [Nat.add_comm, occursAt_shift]
      exact ih hx

theorem phStarts_add_le {l : String} {cs : List Chunk} {i : Nat}
    (h : i ∈ phStarts l cs) :
    i + (marker l).length ≤ (assemble cs).length :=
  occursAt_add_length (marker_ne_nil l) (phStarts_occursAt h)

theorem goodFor_tail {l : String} {c : Chunk} {cs : List Chunk}
    (h : goodFor l (c :: cs)) : goodFor l cs := by
  intro j hj hocc
  have hocc' : occursAt (marker l) (assemble (c :: cs)) (c.flat.length + j) := by
    show occursAt (marker l) (c.flat ++ assemble cs) (c.flat.length + j)
    rw [occursAt_shift]
    exact hocc
  have hj' : c.flat.length + j < (assemble (c :: cs)).length := by
    show c.flat.length + j < (c.flat ++ assemble cs).length
    rw [List.length_append]
    omega
  have hmem := h (c.flat.length + j) hj' hocc'
  unfold phStarts at hmem
  rw [List.mem_append] at hmem
  rcases hmem with hmem | hmem
  · by_cases hc : c = Chunk.ph l
    · rw [if_pos hc] at hmem
      simp only [List.mem_singleton] at hmem
      subst hc
      have : (Chunk.ph l).flat.length ≠ 0 := by
        simp [Chunk.flat, marker_ne_nil]
      omega
    · rw [if_neg hc] at hmem
      simp at hmem
  · rw [List.mem_map] at hmem
    obtain ⟨x, hx, hxe⟩ := hmem
    have : x = j := by omega
    subst this
    exact hx

/-- Step lemma: when the marker of `l` occurs only at the `ph l` chunks,
Python's replace-all rewrites exactly those chunks and nothing else. -/
theorem replaceAll_assemble (l : String) (r : List Char) (cs : List Chunk)
    (hgood : goodFor l cs) :
    replaceAll (marker l) r (assemble cs) =
      assemble (cs.map (replacePh l r)) := by
  induction cs with
  | nil => exact replaceAll_nil _ _
  | cons c cs ih =>
    have hgood' := goodFor_tail hgood
    by_cases hc : c = Chunk.ph l
    · subst hc
      have h1 : assemble (Chunk.ph l :: cs) = marker l ++ assemble cs := rfl
      rw [h1, replaceAll_pos r (marker_ne_nil l) (List.prefix_append _ _)
        (by simp [marker_ne_nil l])]
      rw [List.drop_left]
      have h2 : assemble ((Chunk.ph l :: cs).map (replacePh l r)) =
          r ++ assemble (cs.map (replacePh l r)) := by
        simp [assemble, replacePh, Chunk.flat]
      rw [h2, ih hgood']
    · have h1 : assemble (c :: cs) = c.flat ++ assemble cs := rfl
      rw [h1, replaceAll_append_no_occ _ _ _ _ ?_]
      · have h2 : assemble ((c :: cs).map (replacePh l r)) =
            c.flat ++ assemble (cs.map (replacePh l r)) := by
          have : replacePh l r c = c := by
            unfold replacePh
            rw [if_neg hc]
          simp [assemble, this]
        rw [h2, ih hgood']
      · intro i hi hocc
        have hocc' : occursAt (marker l) (assemble (c :: cs)) i := by
          rw [h1]; exact hocc
        have hibound : i < (assemble (c :: cs)).length :=
          occursAt_lt_length (marker_ne_nil l) hocc'
        have hmem := hgood i hibound hocc'
        unfold phStarts at hmem
        rw [List.mem_append] at hmem
        rcases hmem with hmem | hmem
        · rw [if_neg hc] at hmem
          simp at hmem
        · rw [List.mem_map] at hmem
          obtain ⟨x, _, hxe⟩ := hmem
          omega

/-! ### Shape facts about markers and replacement strings -/

theorem marker_length {l : String} (hl : l ∈ strings) :
    (marker l).length = 11 := by
  rw [strings_eq] at hl
  fin_cases hl <;> decide

theorem marker_take_one (l : String) : (marker l).take 1 = ['>'] := rfl

theorem marker_drop_last {l : String} (hl : l ∈ strings) :
    (marker l).drop ((marker l).length - 1) = ['>'] := by
  rw [strings_eq] at hl
  fin_cases hl <;> decide

theorem marker_gt_pos {l : String} (hl : l ∈ strings) :
    ∀ j, (hj : j < (marker l).length) → (marker l)[j] = '>' →
      j = 0 ∨ j = (marker l).length - 1 := by
  rw [strings_eq] at hl
  fin_cases hl <;> decide

theorem marker_get0 {l : String} (hl : l ∈ strings) :
    ∀ (h : 0 < (marker l).length), (marker l)[0] = '>' := by
  rw [strings_eq] at hl
  fin_cases hl <;> decide

theorem marker_get1 {l : String} (hl : l ∈ strings) :
    ∀ (h : 1 < (marker l).length),
      (marker l)[1] ≠ '<' ∧ (marker l)[1] ≠ ' ' := by
  rw [strings_eq] at hl
  fin_cases hl <;> decide

theorem marker_inj {l₁ l₂ : String} (h : marker l₁ = marker l₂) : l₁ = l₂ := by
  unfold marker at h
  rw [List.cons_append, List.cons_append] at h
  have h3 : l₁.data ++ "</tspan>".data = l₂.data ++ "</tspan>".data := by
    injection h
  have h4 : l₁.data = l₂.data := List.append_cancel_right h3
  cases l₁
  cases l₂
  exact congrArg String.mk h4

theorem probes_eq : probes = ["A", "B", "C", "D", "E", "F"] := rfl

theorem rep_ne_nil {r : List Char} (hr : RepOk r) : r ≠ [] := by
  rcases hr with rfl | ⟨p, hp, rfl⟩
  · decide
  · rw [probes_eq] at hp
    fin_cases hp <;> decide

theorem rep_length {r : List Char} (hr : RepOk r) :
    2 ≤ r.length ∧ r.length ≤ 11 := by
  rcases hr with rfl | ⟨p, hp, rfl⟩
  · decide
  · rw [probes_eq] at hp
    fin_cases hp <;> decide

theorem rep_take_one {r : List Char} (hr : RepOk r) : r.take 1 = ['>'] := by
  rcases hr with rfl | ⟨p, hp, rfl⟩
  · decide
  · rw [probes_eq] at hp
    fin_cases hp <;> decide

theorem rep_drop_last {r : List Char} (hr : RepOk r) :
    r.drop (r.length - 1) = ['>'] := by
  rcases hr with rfl | ⟨p, hp, rfl⟩
  · decide
  · rw [probes_eq] at hp
    fin_cases hp <;> decide

theorem rep_gt_pos {r : List Char} (hr : RepOk r) :
    ∀ j, (hj : j < r.length) → r[j] = '>' → j = 0 ∨ j = r.length - 1 := by
  rcases hr with rfl | ⟨p, hp, rfl⟩
  · decide
  · rw [probes_eq] at hp
    fin_cases hp <;> decide

theorem rep_get0 {r : List Char} (hr : RepOk r) :
    ∀ (h : 0 < r.length), r[0] = '>' := by
  rcases hr with rfl | ⟨p, hp, rfl⟩
  · decide
  · rw [probes_eq] at hp
    fin_cases hp <;> decide

theorem rep_get1 {r : List Char} (hr : RepOk r) :
    ∀ (h : 1 < r.length), r[1] = '<' ∨ r[1] = ' ' := by
  rcases hr with rfl | ⟨p, hp, rfl⟩
  · decide
  · rw [probes_eq] at hp
    fin_cases hp <;> decide

/-! ### Counting and locating placeholder chunks -/

theorem countPh_cons (l : String) (c : Chunk) (cs : List Chunk) :
    countPh l (c :: cs) =
      countPh l cs + if c = Chunk.ph l then 1 else 0 := by
  unfold countPh
  rw [List.countP_cons]
  by_cases hc : c = Chunk.ph l <;> simp [hc]

theorem map_replacePh_of_countPh_zero {l : String} {cs : List Chunk}
    (h : countPh l cs = 0) (r : List Char) :
    cs.map (replacePh l r) = cs := by
  induction cs with
  | nil => rfl
  | cons c cs ih =>
    rw [countPh_cons] at h
    by_cases hc : c = Chunk.ph l
    · rw [if_pos hc] at h
      omega
    · rw [if_neg hc] at h
      simp only [List.map_cons]
      rw [ih (by omega)]
      unfold replacePh
      rw [if_neg hc]

theorem countPh_one_decomp {l : String} {cs : List Chunk}
    (h : countPh l cs = 1) :
    ∃ xs ys, cs = xs ++ Chunk.ph l :: ys ∧
      countPh l xs = 0 ∧ countPh l ys = 0 := by
  induction cs with
  | nil => simp [countPh] at h
  | cons c cs ih =>
    rw [countPh_cons] at h
    by_cases hc : c = Chunk.ph l
    · rw [if_pos hc] at h
      exact ⟨[], cs, by simp [hc], rfl, by omega⟩
    · rw [if_neg hc] at h
      obtain ⟨xs, ys, rfl, h1, h2⟩ := ih (by omega)
      exact ⟨c :: xs, ys, rfl, by rw [countPh_cons, if_neg hc]; omega, h2⟩

theorem countPh_map_ne {l l₁ : String} (hne : l ≠ l₁) (r : List Char)
    (cs : List Chunk) :
    countPh l (cs.map (replacePh l₁ r)) = countPh l cs := by
  induction cs with
  | nil => rfl
  | cons c cs ih =>
    simp only [List.map_cons]
    rw [countPh_cons, countPh_cons, ih]
    congr 1
    unfold replacePh
    by_cases hc : c = Chunk.ph l₁
    · rw [if_pos hc, hc]
      rw [if_neg (by simp), if_neg (by simp [Ne.symm hne])]
    · rw [if_neg hc]

theorem assemble_append (xs ys : List Chunk) :
    assemble (xs ++ ys) = assemble xs ++ assemble ys := by
  induction xs with
  | nil => rfl
  | cons c xs ih =>
    show c.flat ++ assemble (xs ++ ys) = (c.flat ++ assemble xs) ++ assemble ys
    rw [ih, List.append_assoc]

theorem phStarts_cons (l : String) (c : Chunk) (cs : List Chunk) :
    phStarts l (c :: cs) =
      (if c = Chunk.ph l then [0] else []) ++
        (phStarts l cs).map (· + c.flat.length) := rfl

theorem assemble_cons (c : Chunk) (cs : List Chunk) :
    assemble (c :: cs) = c.flat ++ assemble cs := rfl

theorem phStarts_append_left {l : String} {xs : List Chunk} {i : Nat}
    (ys : List Chunk) (h : i ∈ phStarts l xs) :
    i ∈ phStarts l (xs ++ ys) := by
  induction xs generalizing i with
  | nil => simp [phStarts] at h
  | cons c xs ih =>
    rw [phStarts_cons] at h
    rw [List.cons_append, phStarts_cons]
    rcases List.mem_append.mp h with h2 | h2
    · exact List.mem_append.mpr (Or.inl h2)
    · obtain ⟨x, hx, rfl⟩ := List.mem_map.mp h2
      exact List.mem_append.mpr (Or.inr (List.mem_map.mpr ⟨x, ih hx, rfl⟩))

theorem phStarts_append_right {l : String} {ys : List Chunk} {j : Nat}
    (xs : List Chunk) (h : j ∈ phStarts l ys) :
    (assemble xs).length + j ∈ phStarts l (xs ++ ys) := by
  induction xs with
  | nil =>
    rw [show assemble ([] : List Chunk) = [] from rfl]
    rw [List.length_nil, Nat.zero_add, List.nil_append]
    exact h
  | cons c xs ih =>
    rw [List.cons_append, phStarts_cons]
    refine List.mem_append.mpr (Or.inr (List.mem_map.mpr
      ⟨(assemble xs).length + j, ih, ?_⟩))
    rw [assemble_cons, List.length_append]
    omega

theorem phStarts_append_cases {l : String} {xs ys : List Chunk} {i : Nat}
    (h : i ∈ phStarts l (xs ++ ys)) :
    i ∈ phStarts l xs ∨
      ∃ j ∈ phStarts l ys, i = (assemble xs).length + j := by
  induction xs generalizing i with
  | nil =>
    refine Or.inr ⟨i, ?_, ?_⟩
    · rw [List.nil_append] at h
      exact h
    · rw [show assemble ([] : List Chunk) = [] from rfl]
      rw [List.length_nil, Nat.zero_add]
  | cons c xs ih =>
    rw [List.cons_append, phStarts_cons] at h
    rcases List.mem_append.mp h with h2 | h2
    · exact Or.inl (by rw [phStarts_cons]; exact List.mem_append.mpr (Or.inl h2))
    · obtain ⟨x, hx, rfl⟩ := List.mem_map.mp h2
      rcases ih hx with h3 | ⟨j, hj, rfl⟩
      · refine Or.inl ?_
        rw [phStarts_cons]
        exact List.mem_append.mpr (Or.inr (List.mem_map.mpr ⟨x, h3, rfl⟩))
      · refine Or.inr ⟨j, hj, ?_⟩
        rw [assemble_cons, List.length_append]
        omega

theorem phStarts_seg (l : String) (s : List Char) (ys : List Chunk) :
    phStarts l (Chunk.seg s :: ys) = (phStarts l ys).map (· + s.length) := by
  rw [phStarts_cons, if_neg (by simp), List.nil_append]
  rfl

theorem phStarts_ph_ne {l l₁ : String} (hne : l₁ ≠ l) (ys : List Chunk) :
    phStarts l (Chunk.ph l₁ :: ys) =
      (phStarts l ys).map (· + (marker l₁).length) := by
  rw [phStarts_cons, if_neg (by simp [hne]), List.nil_append]
  rfl

/-! ### Occurrence transfer between a template and its partially substituted
form.  `A ++ (r ++ B)` and `A ++ (u ++ B)` differ only in the replaced
marker; since every marker and every replacement starts and ends with `>`
and has no interior `>`, occurrences of another label's marker can only lie
inside `A ++ [head]` or `[last] ++ B`, where the two strings agree. -/

theorem drop_append_le {A X : List Char} {i : Nat} (h : i ≤ A.length) :
    (A ++ X).drop i = A.drop i ++ X := by
  rw [List.drop_append_eq_append_drop, Nat.sub_eq_zero_of_le h, List.drop_zero]

theorem occ_transfer_left {pat A B r u : List Char} {i : Nat}
    (hpat : pat ≠ []) (hrne : 0 < r.length) (hune : 0 < u.length)
    (hru : r.take 1 = u.take 1)
    (hi : i + pat.length ≤ A.length + 1)
    (h : pat <+: (A ++ (r ++ B)).drop i) :
    pat <+: (A ++ (u ++ B)).drop i := by
  have hpl : 0 < pat.length := List.length_pos.mpr hpat
  have hiA : i ≤ A.length := by omega
  rw [drop_append_le hiA] at h
  rw [drop_append_le hiA]
  have hp := List.prefix_iff_eq_take.mp h
  have heq : (A.drop i ++ (r ++ B)).take pat.length =
      (A.drop i ++ (u ++ B)).take pat.length := by
    have hsplit : ∀ X : List Char, 0 < X.length →
        (A.drop i ++ (X ++ B)).take pat.length =
          (A.drop i).take pat.length ++
            X.take (pat.length - (A.drop i).length) := by
      intro X hX
      rw [List.take_append_eq_append_take]
      congr 1
      rw [List.take_append_eq_append_take]
      have hz : pat.length - (A.drop i).length - X.length = 0 := by
        rw [List.length_drop]
        omega
      rw [hz, List.take_zero, List.append_nil]
    rw [hsplit r hrne, hsplit u hune]
    congr 1
    have hk1 : pat.length - (A.drop i).length ≤ 1 := by
      rw [List.length_drop]
      omega
    rcases Nat.le_one_iff_eq_zero_or_eq_one.mp hk1 with h0 | h1
    · rw [h0]
      simp
    · rw [h1]
      exact hru
  refine List.prefix_iff_eq_take.mpr ?_
  conv_lhs => rw [hp]
  exact heq

theorem occ_transfer_right {pat A B r u : List Char} {i : Nat}
    (hrne : 0 < r.length) (hune : 0 < u.length)
    (hrl : r.drop (r.length - 1) = u.drop (u.length - 1))
    (hi : A.length + r.length ≤ i + 1)
    (h : pat <+: (A ++ (r ++ B)).drop i) :
    pat <+: (A ++ (u ++ B)).drop (i + u.length - r.length) := by
  suffices heq : (A ++ (r ++ B)).drop i =
      (A ++ (u ++ B)).drop (i + u.length - r.length) by
    rw [← heq]
    exact h
  have hsplit : ∀ (X : List Char) (t : Nat), A.length ≤ t →
      (A ++ (X ++ B)).drop t =
        X.drop (t - A.length) ++ B.drop (t - A.length - X.length) := by
    intro X t ht
    rw [List.drop_append_eq_append_drop, List.drop_eq_nil_of_le ht,
      List.nil_append, List.drop_append_eq_append_drop]
  rw [hsplit r i (by omega),
    hsplit u (i + u.length - r.length) (by omega)]
  have hiu : i + u.length - r.length - A.length =
      (i - A.length) + u.length - r.length := by omega
  rw [hiu]
  by_cases hc : r.length ≤ i - A.length
  · rw [List.drop_eq_nil_of_le hc,
      List.drop_eq_nil_of_le
        (by omega : u.length ≤ i - A.length + u.length - r.length)]
    simp only [List.nil_append]
    congr 1
    omega
  · have hteq : i - A.length = r.length - 1 := by omega
    have hteq2 : i - A.length + u.length - r.length = u.length - 1 := by
      omega
    rw [hteq2, hteq, hrl]
    have hz : r.length - 1 - r.length = u.length - 1 - u.length := by omega
    rw [hz]

theorem getElem_idx_congr {L : List Char} {a b : Nat} (hab : a = b)
    (ha : a < L.length) (hb : b < L.length) : L[a] = L[b] := by
  subst hab
  rfl

theorem no_occ_middle {pat A B r : List Char} {i : Nat}
    (hplen : 2 ≤ pat.length)
    (hp0 : ∀ (h : 0 < pat.length), pat[0] = '>')
    (hpgt : ∀ j, (hj : j < pat.length) → pat[j] = '>' →
      j = 0 ∨ j = pat.length - 1)
    (hrlen : 2 ≤ r.length)
    (hr0 : ∀ (h : 0 < r.length), r[0] = '>')
    (hrgt : ∀ j, (hj : j < r.length) → r[j] = '>' → j = 0 ∨ j = r.length - 1)
    (hne1 : ∀ (h1 : 1 < pat.length) (h2 : 1 < r.length), pat[1] ≠ r[1])
    (hb1 : A.length + 1 < i + pat.length)
    (hb2 : i + 1 < A.length + r.length) :
    ¬ pat <+: (A ++ (r ++ B)).drop i := by
  intro h
  have hpat : pat ≠ [] := by
    intro hc
    rw [hc] at hplen
    simp at hplen
  have htot := occursAt_add_length hpat h
  rw [List.length_append, List.length_append] at htot
  have hget : ∀ k, (hk : k < pat.length) →
      ∀ (hik : i + k < (A ++ (r ++ B)).length),
      pat[k] = (A ++ (r ++ B))[i + k] := by
    intro k hk hik
    have hkd : k < ((A ++ (r ++ B)).drop i).length := by
      rw [List.length_drop, List.length_append, List.length_append]
      omega
    calc pat[k] = ((A ++ (r ++ B)).drop i)[k] := h.getElem hk
      _ = (A ++ (r ++ B))[i + k] := List.getElem_drop _
  have htotlen : (A ++ (r ++ B)).length = A.length + (r.length + B.length) := by
    rw [List.length_append, List.length_append]
  by_cases hcase : A.length ≤ i
  · -- the occurrence would start inside the replacement
    have ho2 : (i - A.length) + 1 < r.length := by omega
    have hpl0 : 0 < pat.length := by omega
    have hbb0 : i + 0 < (A ++ (r ++ B)).length := by rw [htotlen]; omega
    have e1 : pat[0] = (A ++ (r ++ B))[i + 0] := hget 0 hpl0 hbb0
    have hbbi : i < (A ++ (r ++ B)).length := by rw [htotlen]; omega
    have e1' : pat[0] = (A ++ (r ++ B))[i] := e1
    have hbb : i - A.length < (r ++ B).length := by
      rw [List.length_append]
      omega
    have e2 : (A ++ (r ++ B))[i] = (r ++ B)[i - A.length] :=
      List.getElem_append_right hcase
    have hoR : i - A.length < r.length := by omega
    have e3 : (r ++ B)[i - A.length] = r[i - A.length] :=
      List.getElem_append_left hoR
    have hro : r[i - A.length] = '>' := by
      rw [← e3, ← e2, ← e1']
      exact hp0 hpl0
    rcases hrgt (i - A.length) hoR hro with h0 | hlast
    · -- the replacement's opening `>`; the next character must differ
      have hpl1 : 1 < pat.length := by omega
      have hrl1 : 1 < r.length := by omega
      have hbb1 : i + 1 < (A ++ (r ++ B)).length := by rw [htotlen]; omega
      have e4 : pat[1] = (A ++ (r ++ B))[i + 1] := hget 1 hpl1 hbb1
      have h5 : A.length ≤ i + 1 := by omega
      have hbb2 : i + 1 - A.length < (r ++ B).length := by
        rw [List.length_append]
        omega
      have e5 : (A ++ (r ++ B))[i + 1] = (r ++ B)[i + 1 - A.length] :=
        List.getElem_append_right h5
      have h6 : i + 1 - A.length < r.length := by omega
      have e6 : (r ++ B)[i + 1 - A.length] = r[i + 1 - A.length] :=
        List.getElem_append_left h6
      have h7 : i + 1 - A.length = 1 := by omega
      have e7 : r[i + 1 - A.length] = r[1] := getElem_idx_congr h7 h6 hrl1
      exact hne1 hpl1 hrl1 (by rw [e4, e5, e6, e7])
    · omega
  · -- the occurrence would start inside `A` and cross into the replacement
    push_neg at hcase
    have hkp : A.length - i < pat.length := by omega
    have hk2 : A.length - i < pat.length - 1 := by omega
    have hbb : i + (A.length - i) < (A ++ (r ++ B)).length := by
      rw [htotlen]
      omega
    have e1 : pat[A.length - i] = (A ++ (r ++ B))[i + (A.length - i)] :=
      hget (A.length - i) hkp hbb
    have h8 : i + (A.length - i) = A.length := by omega
    have hbt : A.length < (A ++ (r ++ B)).length := by rw [htotlen]; omega
    have e1b : pat[A.length - i] = (A ++ (r ++ B))[A.length] :=
      e1.trans (getElem_idx_congr h8 hbb hbt)
    have hbb2 : A.length - A.length < (r ++ B).length := by
      rw [List.length_append]
      omega
    have e2 : (A ++ (r ++ B))[A.length] = (r ++ B)[A.length - A.length] :=
      List.getElem_append_right (le_refl _)
    have h10 : A.length - A.length = 0 := by omega
    have hbb3 : (0 : Nat) < (r ++ B).length := by
      rw [List.length_append]
      omega
    have e2b : (A ++ (r ++ B))[A.length] = (r ++ B)[0] :=
      e2.trans (getElem_idx_congr h10 hbb2 hbb3)
    have h11 : (0 : Nat) < r.length := by omega
    have e3 : (r ++ B)[0] = r[0] := List.getElem_append_left h11
    have hgt : pat[A.length - i] = '>' := by
      rw [e1b, e2b, e3]
      exact hr0 h11
    rcases hpgt (A.length - i) hkp hgt with h0 | hlast <;> omega

/-- Substituting one label's placeholder (unique in the template) neither
creates nor destroys occurrences of any other label's marker: the
well-scopedness property survives each step of the rendering fold. -/
theorem goodFor_map_replacePh {l₁ l₂ : String} (hl₁ : l₁ ∈ strings)
    (hl₂ : l₂ ∈ strings) (hne : l₂ ≠ l₁) {r : List Char} (hr : RepOk r)
    {cs : List Chunk} (hcount : countPh l₁ cs ≤ 1) (hg : goodFor l₂ cs) :
    goodFor l₂ (cs.map (replacePh l₁ r)) := by
  rcases Nat.lt_or_ge (countPh l₁ cs) 1 with h0 | h1
  · rw [map_replacePh_of_countPh_zero (by omega) r]
    exact hg
  · have h1' : countPh l₁ cs = 1 := le_antisymm hcount h1
    obtain ⟨xs, ys, rfl, hxs0, hys0⟩ := countPh_one_decomp h1'
    have hmap : (xs ++ Chunk.ph l₁ :: ys).map (replacePh l₁ r) =
        xs ++ Chunk.seg r :: ys := by
      rw [List.map_append, List.map_cons,
        map_replacePh_of_countPh_zero hxs0 r,
        map_replacePh_of_countPh_zero hys0 r,
        show replacePh l₁ r (Chunk.ph l₁) = Chunk.seg r from by
          unfold replacePh
          rw [if_pos rfl]]
    rw [hmap]
    have hmu : (marker l₁).length = 11 := marker_length hl₁
    have hn : (marker l₂).length = 11 := marker_length hl₂
    have hrlen := rep_length hr
    have hrne : 0 < r.length := by omega
    intro i hilen hocc
    have hanew : assemble (xs ++ Chunk.seg r :: ys) =
        assemble xs ++ (r ++ assemble ys) := by
      rw [assemble_append, assemble_cons]
      rfl
    have haold : assemble (xs ++ Chunk.ph l₁ :: ys) =
        assemble xs ++ (marker l₁ ++ assemble ys) := by
      rw [assemble_append, assemble_cons]
      rfl
    rw [hanew] at hocc
    by_cases hca : i + 11 ≤ (assemble xs).length + 1
    · have hold : marker l₂ <+:
          (assemble xs ++ (marker l₁ ++ assemble ys)).drop i := by
        refine occ_transfer_left (marker_ne_nil l₂) hrne (by omega) ?_
          (by omega) hocc
        rw [rep_take_one hr, marker_take_one l₁]
      have holdocc : occursAt (marker l₂)
          (assemble (xs ++ Chunk.ph l₁ :: ys)) i := by
        rw [haold]
        exact hold
      have hiold : i < (assemble (xs ++ Chunk.ph l₁ :: ys)).length :=
        occursAt_lt_length (marker_ne_nil l₂) holdocc
      have hmem := hg i hiold holdocc
      rcases phStarts_append_cases hmem with hxs | ⟨j, hj, rfl⟩
      · exact phStarts_append_left _ hxs
      · rw [phStarts_ph_ne (Ne.symm hne)] at hj
        obtain ⟨x, hx, rfl⟩ := List.mem_map.mp hj
        exfalso
        omega
    · by_cases hcb : (assemble xs).length + r.length ≤ i + 1
      · have hold : marker l₂ <+:
            (assemble xs ++ (marker l₁ ++ assemble ys)).drop
              (i + (marker l₁).length - r.length) := by
          refine occ_transfer_right hrne (by omega) ?_ hcb hocc
          rw [rep_drop_last hr, marker_drop_last hl₁]
        have holdocc : occursAt (marker l₂)
            (assemble (xs ++ Chunk.ph l₁ :: ys))
            (i + (marker l₁).length - r.length) := by
          rw [haold]
          exact hold
        have hiold := occursAt_lt_length (marker_ne_nil l₂) holdocc
        have hmem := hg _ hiold holdocc
        rcases phStarts_append_cases hmem with hxs | ⟨j, hj, he⟩
        · have hble := phStarts_add_le hxs
          exfalso
          omega
        · rw [phStarts_ph_ne (Ne.symm hne)] at hj
          obtain ⟨x, hx, rfl⟩ := List.mem_map.mp hj
          have hienew : i = (assemble xs).length + (x + r.length) := by
            omega
          rw [hienew]
          refine phStarts_append_right xs ?_
          rw [phStarts_seg]
          exact List.mem_map.mpr ⟨x, hx, rfl⟩
      · exfalso
        refine absurd hocc (no_occ_middle (by omega) (marker_get0 hl₂)
          (marker_gt_pos hl₂) (by omega) (rep_get0 hr) (rep_gt_pos hr)
          ?_ (by omega) (by omega))
        intro hp1 hp2
        rcases rep_get1 hr hp2 with hc | hc <;> rw [hc]
        · exact (marker_get1 hl₂ hp1).1
        · exact (marker_get1 hl₂ hp1).2

theorem substOn_seg (st : State) (L : List String) (s : List Char) :
    substOn st L (Chunk.seg s) = Chunk.seg s := rfl

theorem substOn_ph (st : State) (L : List String) (l : String) :
    substOn st L (Chunk.ph l) =
      if l ∈ L then Chunk.seg (holeRep st l) else Chunk.ph l := rfl

theorem map_substOn_nil (st : State) (cs : List Chunk) :
    cs.map (substOn st []) = cs := by
  induction cs with
  | nil => rfl
  | cons c cs ih =>
    rw [List.map_cons, ih]
    congr 1
    cases c with
    | seg s => rfl
    | ph l =>
      unfold substOn
      simp

/-- The rendering fold over a list of labels substitutes exactly the
placeholders of those labels, provided every label's marker is findable only
at its placeholder. -/
theorem fold_render (st : State) (hst : HoleValuesOk st) :
    ∀ (L : List String) (cs : List Chunk),
      (∀ l ∈ L, l ∈ strings) → L.Nodup →
      (∀ l, Chunk.ph l ∈ cs → l ∈ L) →
      (∀ l ∈ L, countPh l cs ≤ 1) →
      (∀ l ∈ L, goodFor l cs) →
      L.foldl
        (fun data hole => replaceAll (marker hole) (holeRep st hole) data)
        (assemble cs) =
      assemble (cs.map (substOn st L)) := by
  intro L
  induction L with
  | nil =>
    intro cs _ _ _ _ _
    rw [List.foldl_nil, map_substOn_nil]
  | cons l₁ L ih =>
    intro cs hsub hnd hph hcount hgood
    obtain ⟨hl₁nL, hndL⟩ := List.nodup_cons.mp hnd
    have hl₁ : l₁ ∈ strings := hsub l₁ (List.mem_cons_self ..)
    have hrep : RepOk (holeRep st l₁) := by
      unfold holeRep
      cases hh : st.hole_memory l₁ with
      | none => exact Or.inl rfl
      | some tl => exact Or.inr ⟨tl, hst l₁ tl hh, rfl⟩
    have hphlabels : ∀ l,
        Chunk.ph l ∈ cs.map (replacePh l₁ (holeRep st l₁)) → l ∈ L := by
      intro l hl
      obtain ⟨c, hc, he⟩ := List.mem_map.mp hl
      have hcph : c = Chunk.ph l ∧ l ≠ l₁ := by
        unfold replacePh at he
        by_cases hc1 : c = Chunk.ph l₁
        · rw [if_pos hc1] at he
          cases he
        · rw [if_neg hc1] at he
          refine ⟨he, ?_⟩
          intro hll
          rw [he, hll] at hc1
          exact hc1 rfl
      have hl' := hph l (hcph.1 ▸ hc)
      rcases List.mem_cons.mp hl' with h | h
      · exact absurd h hcph.2
      · exact h
    have hcounts : ∀ l ∈ L,
        countPh l (cs.map (replacePh l₁ (holeRep st l₁))) ≤ 1 := by
      intro l hl
      rw [countPh_map_ne (by intro hc; subst hc; exact hl₁nL hl) _]
      exact hcount l (List.mem_cons_of_mem _ hl)
    have hgoods : ∀ l ∈ L,
        goodFor l (cs.map (replacePh l₁ (holeRep st l₁))) := by
      intro l hl
      refine goodFor_map_replacePh hl₁ (hsub l (List.mem_cons_of_mem _ hl))
        ?_ hrep (hcount l₁ (List.mem_cons_self ..))
        (hgood l (List.mem_cons_of_mem _ hl))
      intro hc
      subst hc
      exact hl₁nL hl
    rw [List.foldl_cons,
      replaceAll_assemble l₁ _ cs (hgood l₁ (List.mem_cons_self ..)),
      ih _ (fun l hl => hsub l (List.mem_cons_of_mem _ hl)) hndL
        hphlabels hcounts hgoods,
      List.map_map]
    congr 1
    apply List.map_congr_left
    intro c _
    show substOn st L (replacePh l₁ (holeRep st l₁) c) = substOn st (l₁ :: L) c
    cases c with
    | seg s => rfl
    | ph l =>
      by_cases hll : l = l₁
      · subst hll
        rw [show replacePh l (holeRep st l) (Chunk.ph l) =
              Chunk.seg (holeRep st l) from by
            unfold replacePh
            rw [if_pos rfl]]
        rw [substOn_seg, substOn_ph, if_pos (List.mem_cons_self ..)]
      · rw [show replacePh l₁ (holeRep st l₁) (Chunk.ph l) = Chunk.ph l from by
            unfold replacePh
            rw [if_neg (by simp [hll])]]
        rw [substOn_ph, substOn_ph]
        by_cases hlL : l ∈ L
        · rw [if_pos hlL, if_pos (List.mem_cons_of_mem _ hlL)]
        · rw [if_neg hlL, if_neg (by simp [hll, hlL])]

theorem show_memory_eq_fold (st : State) (svg : List Char) :
    show_memory st svg =
      strings.foldl
        (fun data hole => replaceAll (marker hole) (holeRep st hole) data)
        svg := by
  unfold show_memory
  suffices h : ∀ (L : List String) (s : List Char),
      L.foldl
        (fun data hole =>
          match st.hole_memory hole with
          | none => replaceAll (marker hole) blankRep data
          | some textlabel =>
            replaceAll (marker hole) (probeRep textlabel) data) s =
      L.foldl
        (fun data hole => replaceAll (marker hole) (holeRep st hole) data)
        s by
    exact h strings svg
  intro L
  induction L with
  | nil => intro s; rfl
  | cons hole L ih =>
    intro s
    rw [List.foldl_cons, List.foldl_cons, ih]
    congr 1
    unfold holeRep
    cases hh : st.hole_memory hole <;> rfl

/-- Claim C5: rendering is exactly one scoped substitution per label.  For a
template decomposed into inert segments and per-label placeholder markers —
each label having at most one placeholder, each marker findable only at its
placeholder (the spec's "one well-defined placeholder marker per label"), and
the store holding only probe identifiers — `show_memory` produces exactly
the chunk-wise substitution: every placeholder is replaced once (by the
probe marker when its hole is assigned, by the blank marker otherwise) and
every other part of the template, including any other occurrence of a label
substring, is reproduced byte for byte. -/
theorem c5_render_scoped (st : State) (cs : List Chunk)
    (hph : PhLabelsOk cs)
    (hcount : ∀ l ∈ strings, countPh l cs ≤ 1)
    (hgood : ∀ l ∈ strings, goodFor l cs)
    (hst : HoleValuesOk st) :
    show_memory st (assemble cs) = assemble (cs.map (substChunk st)) := by
  rw [show_memory_eq_fold,
    fold_render st hst strings cs (fun l hl => hl)
      (by decide : strings.Nodup) hph hcount hgood]
  congr 1
  apply List.map_congr_left
  intro c hc
  cases c with
  | seg s => rfl
  | ph l =>
    rw [substOn_ph, if_pos (hph l hc)]
    rfl

theorem c5_witness :
    show_memory ⟨fun _ => none, upd (fun _ => none) "A1" (some "A")⟩
      (assemble [Chunk.seg "<svg>".data, Chunk.ph "A1",
        Chunk.seg "<g id=1>x</g>".data, Chunk.ph "B2",
        Chunk.seg "</svg>".data]) =
    assemble ([Chunk.seg "<svg>".data, Chunk.ph "A1",
        Chunk.seg "<g id=1>x</g>".data, Chunk.ph "B2",
        Chunk.seg "</svg>".data].map
      (substChunk ⟨fun _ => none, upd (fun _ => none) "A1" (some "A")⟩)) := by
  refine c5_render_scoped _ _ ?_ (by decide) (by decide) ?_
  · intro l hl
    simp only [List.mem_cons, List.not_mem_nil, or_false] at hl
    rcases hl with h | h | h | h | h
    · cases h
    · injection h with h2
      subst h2
      decide
    · cases h
    · injection h with h2
      subst h2
      decide
    · cases h
  · intro l p h
    dsimp only at h
    unfold upd at h
    by_cases hc : l = "A1"
    · rw [if_pos hc] at h
      injection h with h2
      rw [← h2]
      decide
    · rw [if_neg hc] at h
      cases h

end ImplantSVG
